import Mathlib

/-! Verification of the spike-waveform classification and alignment module
(`src/plotting/plot_waveforms.py`).  Timestamps are embedded as rationals,
waveform cutouts as rational-valued arrays with explicit dimensions, and the
three core transforms (event-window classification, baseline removal,
peak re-alignment) are translated function by function from the source. -/

attribute [local semireducible] Rat.add Rat.sub Rat.mul Rat.inv

set_option maxRecDepth 100000

/-! ## Classifier (lines 102-134 of the source) -/

/-- The while-loop of Python `bisect.bisect_left` on the half-open interval
`lo..hi`; the loop runs at most `hi - lo` rounds, so a fuel of
`length + 1` always suffices. -/
def bisect_left_loop : Nat → List ℚ → ℚ → Nat → Nat → Nat
  | 0, _, _, lo, _ => lo
  | fuel + 1, a, x, lo, hi =>
    if lo < hi then
      if a.getD ((lo + hi) / 2) 0 < x then
        bisect_left_loop fuel a x ((lo + hi) / 2 + 1) hi
      else
        bisect_left_loop fuel a x lo ((lo + hi) / 2)
    else lo

/-- Python `bisect.bisect_left(a, x)`: the insertion point of `x` in `a`. -/
def bisect_left (a : List ℚ) (x : ℚ) : Nat :=
  bisect_left_loop (a.length + 1) a x 0 a.length

/-- `calc_is_tagged` (source lines 121-134): look up the index of the latest
event before the spike via `bisect_left - 1`; index `-1` means no preceding
event (spontaneous), otherwise the spike is tagged iff the spike lies within
`window` after that event. -/
def calc_is_tagged (event_stamps : List ℚ) (spike_time : ℚ) (window : ℚ) : Bool :=
  if (bisect_left event_stamps spike_time : Int) - 1 = -1 then false
  else
    decide (spike_time -
      event_stamps.getD ((bisect_left event_stamps spike_time : Int) - 1).toNat 0 < window)

/-- `assign_timestamp_type` (source lines 102-119): boolean-mask selection of
the spikes whose `calc_is_tagged` flag is set, and of the complement; numpy
boolean indexing keeps the original order, i.e. it is a stable filter. -/
def assign_timestamp_type (event_stamps : List ℚ) (spike_times : List ℚ)
    (window : ℚ) : List ℚ × List ℚ :=
  (spike_times.filter (fun t => calc_is_tagged event_stamps t window),
   spike_times.filter (fun t => !(calc_is_tagged event_stamps t window)))

/-! ## Waveform data model and aligner (lines 48-51 and 136-152) -/

/-- A waveform cutout: `L` samples over time on `C` electrode channels,
stored as a total value function (indices outside the `L` by `C` grid carry
irrelevant values; every statement below only inspects in-range indices). -/
structure Waveform where
  L : Nat
  C : Nat
  val : Nat → Nat → ℚ

instance : Inhabited Waveform := ⟨⟨0, 0, fun _ _ => 0⟩⟩

/-- Sample count of a waveform set; numpy reads it off the 3D array shape,
which every member shares. -/
def set_L (ws : List Waveform) : Nat := (ws.headD default).L

/-- Channel count of a waveform set, read off the shared 3D array shape. -/
def set_C (ws : List Waveform) : Nat := (ws.headD default).C

/-- Scan step of `np.argmax`: carries the best index and best value so far;
only a strictly larger element replaces the best, so the first occurrence
of the maximum wins. -/
def argmaxAux : List ℚ → Nat → Nat → ℚ → Nat × ℚ
  | [], _, bi, bv => (bi, bv)
  | x :: xs, i, bi, bv =>
    if bv < x then argmaxAux xs (i + 1) i x else argmaxAux xs (i + 1) bi bv

/-- `np.argmax` over a 1D list: index of the first occurrence of the
maximal element (`0` on the empty list, where numpy raises instead; callers
below guard that case). -/
def argmax (xs : List ℚ) : Nat :=
  match xs with
  | [] => 0
  | x :: rest => (argmaxAux rest 1 0 x).1

/-- Row-major flattening of an `L` by `C` array, as numpy flattens before a
global `argmax`: flat index `k` holds entry `(k / C, k % C)`. -/
def flattenVals (L C : Nat) (v : Nat → Nat → ℚ) : List ℚ :=
  (List.range (L * C)).map (fun k => v (k / C) (k % C))

/-- `np.mean(np.abs(spont_waveforms), axis = 0)` (source line 144): the
per-(sample, channel) mean absolute amplitude over all waveforms. -/
def mean_abs_axis0 (ws : List Waveform) : Nat → Nat → ℚ :=
  fun l c => ((ws.map (fun w => |w.val l c|)).sum) / ws.length

/-- `spont_max_index` (source line 144): flat argmax of the per-(sample,
channel) mean absolute amplitude array, integer-divided by the hard-coded
channel count 4 to recover a sample index. -/
def spont_ref_index (spont_waveforms : List Waveform) : Nat :=
  argmax (flattenVals (set_L spont_waveforms) (set_C spont_waveforms)
    (mean_abs_axis0 spont_waveforms)) / 4

/-- Python slice-endpoint semantics: a negative endpoint counts from the
end of the axis (clamped below at 0), a nonnegative one is clamped above at
the length. -/
def pySliceIdx (len : Nat) (i : Int) : Nat :=
  if i < 0 then (max ((len : Int) + i) 0).toNat else min i.toNat len

/-- `cur_waveform[a:b, :]`: the rows from the resolved start (inclusive) to
the resolved stop (exclusive); an inverted range yields zero rows. -/
def sliceRows (w : Waveform) (a b : Int) : Waveform :=
  ⟨pySliceIdx w.L b - pySliceIdx w.L a, w.C,
    fun i c => w.val (pySliceIdx w.L a + i) c⟩

/-- `calc_waveform_max` (source lines 145-147): flat argmax of the absolute
amplitudes in the 12-sample slice `[ref-6 : ref+6]`, divided by 4 and mapped
back to a global sample index by adding `ref - 6`; `none` models the
`ValueError` that `np.argmax` raises on an empty slice. -/
def calc_waveform_max (spont_max_index : Nat) (cur_waveform : Waveform) : Option Int :=
  let centered := sliceRows cur_waveform ((spont_max_index : Int) - 6)
    ((spont_max_index : Int) + 6)
  let flat := flattenVals centered.L centered.C (fun i c => |centered.val i c|)
  if flat.isEmpty then none
  else some (((argmax flat / 4 : Nat) : Int) + (spont_max_index : Int) - 6)

/-- `np.roll(w, shift, axis = 0)`: circular shift along the time axis,
`out[i] = w[(i - shift) mod L]`; the shape is untouched. -/
def roll (w : Waveform) (shift : Int) : Waveform :=
  ⟨w.L, w.C, fun i c => w.val ((((i : Int) - shift) % (w.L : Int)).toNat) c⟩

/-- `list(map(f, xs))` for a fallible `f`: a raise anywhere aborts the whole
traversal. -/
def mapOpt {α β : Type} (f : α → Option β) : List α → Option (List β)
  | [] => some []
  | a :: as =>
    match f a, mapOpt f as with
    | some b, some bs => some (b :: bs)
    | _, _ => none

/-- `align_tagged_spont` (source lines 136-152): compute the reference
sample index from the spontaneous set, locate each tagged waveform's local
peak near it, and roll each tagged waveform by `ref - peak`. -/
def align_tagged_spont (tagged_waveforms spont_waveforms : List Waveform) :
    Option (List Waveform) :=
  match mapOpt (calc_waveform_max (spont_ref_index spont_waveforms)) tagged_waveforms with
  | none => none
  | some tagged_offsets =>
      some ((tagged_waveforms.zip tagged_offsets).map
        (fun p => roll p.1 (-p.2 + (spont_ref_index spont_waveforms : Int))))

/-- `np.apply_over_axes(np.mean, waveforms, axes = [0, 1])[0][0]` (source
lines 48-51): mean over the waveform axis, then over the sample axis,
leaving one scalar per channel. -/
def baseline_offset (ws : List Waveform) (L : Nat) : Nat → ℚ :=
  fun c => ((List.range L).map
    (fun l => ((ws.map (fun w => w.val l c)).sum) / ws.length)).sum / L

/-- `waveforms -= offset` (source lines 48-51; the spec's `remove_baseline`
operation): subtract the per-channel offset from every sample of every
waveform. -/
def remove_baseline (ws : List Waveform) : List Waveform :=
  ws.map (fun w =>
    ⟨w.L, w.C, fun l c => w.val l c - baseline_offset ws (set_L ws) c⟩)

/-- Stated from the spec for claim C6: the mean over all samples of all
waveforms of a set, for one channel. -/
def channelMeanSpec (ws : List Waveform) (L : Nat) (c : Nat) : ℚ :=
  ((ws.map (fun w => ((List.range L).map (fun l => w.val l c)).sum)).sum)
    / ((ws.length : ℚ) * L)

/-- Stated from the spec for claim C2: the 1D profile obtained by averaging
the absolute amplitude over all waveforms and all 4 channels at each sample
index. -/
def profileSpec (spont : List Waveform) (l : Nat) : ℚ :=
  ((spont.map (fun w => ((List.range 4).map (fun c => |w.val l c|)).sum)).sum)
    / ((spont.length : ℚ) * 4)

/-! ## Concrete waveforms used to instantiate the claims -/

/-- A 26-sample tetrode cutout whose only nonzero entry sits at sample 20,
channel 0; as a spontaneous set of one, its reference index is 20. -/
def spontPeak20 : Waveform :=
  ⟨26, 4, fun l c => if l = 20 ∧ c = 0 then 100 else 0⟩

/-- A 26-sample tetrode cutout whose only nonzero entry sits at sample 23,
channel 0: its local peak inside the window `[14, 26)` is at 23. -/
def taggedPeak23 : Waveform :=
  ⟨26, 4, fun l c => if l = 23 ∧ c = 0 then 50 else 0⟩

/-- A 20-sample tetrode cutout peaking at sample 2, channel 0; as a
spontaneous set of one, its reference index is 2, which is below 6. -/
def spontPeak2 : Waveform :=
  ⟨20, 4, fun l c => if l = 2 ∧ c = 0 then 7 else 0⟩

/-- A constant 20-sample tetrode cutout, used as a tagged input. -/
def flatTagged20 : Waveform := ⟨20, 4, fun _ _ => 1⟩

/-- A 2-sample tetrode cutout whose largest single entry (10, at sample 0)
sits at a different sample than the largest channel-averaged amplitude
(sample 1, where every channel reads 3). -/
def profileSkew : Waveform :=
  ⟨2, 4, fun l c => if l = 0 ∧ c = 0 then 10 else if l = 1 then 3 else 0⟩

/-- A one-waveform set with a single sample, constant value 2. -/
def constWave : Waveform := ⟨1, 4, fun _ _ => 2⟩

/-! ## Correctness of the binary search on sorted event lists -/

lemma sorted_getD_mono (a : List ℚ) (hs : a.Pairwise (· < ·)) {i j : Nat}
    (hij : i ≤ j) (hj : j < a.length) : a.getD i 0 ≤ a.getD j 0 := by
  rcases Nat.eq_or_lt_of_le hij with h | h
  · subst h; exact le_refl _
  · have hi : i < a.length := lt_trans h hj
    rw [List.getD_eq_getElem a 0 hi, List.getD_eq_getElem a 0 hj]
    exact le_of_lt (List.pairwise_iff_getElem.mp hs i j hi hj h)

lemma bisect_left_loop_spec (a : List ℚ) (x : ℚ) (hs : a.Pairwise (· < ·)) :
    ∀ fuel lo hi : Nat, hi - lo ≤ fuel → lo ≤ hi → hi ≤ a.length →
      (∀ i, i < lo → a.getD i 0 < x) →
      (∀ i, hi ≤ i → i < a.length → ¬ a.getD i 0 < x) →
      bisect_left_loop fuel a x lo hi ≤ a.length ∧
        (∀ i, i < bisect_left_loop fuel a x lo hi → a.getD i 0 < x) ∧
        (∀ i, bisect_left_loop fuel a x lo hi ≤ i → i < a.length →
          ¬ a.getD i 0 < x) := by
  intro fuel
  induction fuel with
  | zero =>
      intro lo hi hfuel hlohi hhi hlo hhi2
      have heq : lo = hi := by omega
      subst heq
      simp only [bisect_left_loop]
      exact ⟨by omega, hlo, hhi2⟩
  | succ fuel ih =>
      intro lo hi hfuel hlohi hhi hlo hhi2
      by_cases hlt : lo < hi
      · have hmid1 : lo ≤ (lo + hi) / 2 := by omega
        have hmid2 : (lo + hi) / 2 < hi := by omega
        have hmidlen : (lo + hi) / 2 < a.length := by omega
        by_cases hv : a.getD ((lo + hi) / 2) 0 < x
        · have hstep : bisect_left_loop (fuel + 1) a x lo hi
              = bisect_left_loop fuel a x ((lo + hi) / 2 + 1) hi := by
            simp only [bisect_left_loop, if_pos hlt, if_pos hv]
          rw [hstep]
          apply ih ((lo + hi) / 2 + 1) hi (by omega) (by omega) hhi
          · intro i hi2
            rcases Nat.lt_or_ge i lo with h | h
            · exact hlo i h
            · exact lt_of_le_of_lt (sorted_getD_mono a hs (by omega) hmidlen) hv
          · exact hhi2
        · have hstep : bisect_left_loop (fuel + 1) a x lo hi
              = bisect_left_loop fuel a x lo ((lo + hi) / 2) := by
            simp only [bisect_left_loop, if_pos hlt, if_neg hv]
          rw [hstep]
          apply ih lo ((lo + hi) / 2) (by omega) (by omega) (by omega) hlo
          intro i hi2 hi3 hcon
          exact hv (lt_of_le_of_lt (sorted_getD_mono a hs hi2 hi3) hcon)
      · have heq : lo = hi := by omega
        subst heq
        simp only [bisect_left_loop, if_neg hlt]
        exact ⟨by omega, hlo, hhi2⟩

lemma bisect_left_spec (a : List ℚ) (x : ℚ) (hs : a.Pairwise (· < ·)) :
    bisect_left a x ≤ a.length ∧
      (∀ i, i < bisect_left a x → a.getD i 0 < x) ∧
      (∀ i, bisect_left a x ≤ i → i < a.length → x ≤ a.getD i 0) := by
  have h := bisect_left_loop_spec a x hs (a.length + 1) 0 a.length
    (by omega) (by omega) (le_refl _)
    (fun i hi => absurd hi (Nat.not_lt_zero i))
    (fun i hi1 hi2 => absurd (lt_of_le_of_lt hi1 hi2) (lt_irrefl a.length))
  obtain ⟨h1, h2, h3⟩ := h
  exact ⟨h1, h2, fun i hi1 hi2 => not_lt.mp (h3 i hi1 hi2)⟩

lemma calc_is_tagged_iff (a : List ℚ) (t w : ℚ) :
    calc_is_tagged a t w = true ↔
      0 < bisect_left a t ∧ t - a.getD (bisect_left a t - 1) 0 < w := by
  unfold calc_is_tagged
  rcases Nat.eq_zero_or_pos (bisect_left a t) with h | h
  · rw [h]
    simp
  · have hne : ((bisect_left a t : Int)) - 1 ≠ -1 := by omega
    rw [if_neg hne]
    have htn : (((bisect_left a t : Int)) - 1).toNat = bisect_left a t - 1 := by omega
    rw [htn, decide_eq_true_iff]
    exact (and_iff_right h).symm

/-- For a sorted event list with a positive insertion point, the event at
index `bisect_left - 1` is the latest event strictly before the spike. -/
lemma latest_event_spec (a : List ℚ) (t : ℚ) (hs : a.Pairwise (· < ·))
    (h : 0 < bisect_left a t) :
    a.getD (bisect_left a t - 1) 0 ∈ a ∧
      a.getD (bisect_left a t - 1) 0 < t ∧
      ∀ e ∈ a, e < t → e ≤ a.getD (bisect_left a t - 1) 0 := by
  obtain ⟨h1, h2, h3⟩ := bisect_left_spec a t hs
  have hlt : bisect_left a t - 1 < a.length := by omega
  refine ⟨?_, h2 _ (by omega), ?_⟩
  · rw [List.getD_eq_getElem a 0 hlt]
    exact List.getElem_mem hlt
  · intro e he het
    obtain ⟨j, hj, hje⟩ := List.mem_iff_getElem.mp he
    have hjn : j < bisect_left a t := by
      by_contra hcon
      have hge := h3 j (by omega) hj
      rw [List.getD_eq_getElem a 0 hj, hje] at hge
      exact absurd het (not_lt.mpr hge)
    have hmono := sorted_getD_mono a hs (i := j) (j := bisect_left a t - 1) (by omega) hlt
    rw [List.getD_eq_getElem a 0 (by omega : j < a.length), hje] at hmono
    exact hmono

/-- If some event `e` strictly precedes `t` and is the latest to do so, then
`bisect_left` finds exactly that event. -/
lemma latest_event_unique (a : List ℚ) (t e : ℚ) (hs : a.Pairwise (· < ·))
    (hmem : e ∈ a) (hlt : e < t) (hlatest : ∀ e' ∈ a, e' < t → e' ≤ e) :
    0 < bisect_left a t ∧ a.getD (bisect_left a t - 1) 0 = e := by
  obtain ⟨h1, h2, h3⟩ := bisect_left_spec a t hs
  obtain ⟨j, hj, hje⟩ := List.mem_iff_getElem.mp hmem
  have hjn : j < bisect_left a t := by
    by_contra hcon
    have hge := h3 j (by omega) hj
    rw [List.getD_eq_getElem a 0 hj, hje] at hge
    exact absurd hlt (not_lt.mpr hge)
  have hpos : 0 < bisect_left a t := by omega
  obtain ⟨hmem2, hlt2, hlatest2⟩ := latest_event_spec a t hs hpos
  exact ⟨hpos, le_antisymm (hlatest _ hmem2 hlt2) (hlatest2 e hmem hlt)⟩

/-! ## Claims about the classifier -/

/-- Claim C1, counterexample: with the single event list `[1]`, spike time
`1` and window `1/100`, the event `1` is the latest event `≤` the spike and
lies within the window, yet `calc_is_tagged` classifies the spike as
spontaneous, because `bisect_left` only looks at events strictly before the
spike.  So the claim's `≤` reading is false on the code. -/
theorem c1_counterexample :
    ¬ (calc_is_tagged [1] 1 (1 / 100) = true ↔
        ∃ e ∈ [(1 : ℚ)], e ≤ 1 ∧ (∀ e' ∈ [(1 : ℚ)], e' ≤ 1 → e' ≤ e) ∧
          1 - e < 1 / 100) := by
  decide

/-- Claim C1 (amended): for sorted events, `calc_is_tagged` classifies `t`
as tagged iff some event `e < t` (strictly before, not `≤`) exists and the
latest such `e` satisfies `t - e < window`; with no strictly preceding event
the spike is spontaneous regardless of the window. -/
theorem c1_tagged_iff_latest_preceding (events : List ℚ) (t w : ℚ)
    (hs : events.Pairwise (· < ·)) :
    (calc_is_tagged events t w = true ↔
      ∃ e ∈ events, e < t ∧ (∀ e' ∈ events, e' < t → e' ≤ e) ∧ t - e < w) ∧
    ((∀ e ∈ events, ¬ e < t) → calc_is_tagged events t w = false) := by
  constructor
  · rw [calc_is_tagged_iff]
    constructor
    · rintro ⟨hpos, hw⟩
      obtain ⟨hmem, hlt, hlatest⟩ := latest_event_spec events t hs hpos
      exact ⟨_, hmem, hlt, hlatest, hw⟩
    · rintro ⟨e, hmem, hlt, hlatest, hw⟩
      obtain ⟨hpos, heq⟩ := latest_event_unique events t e hs hmem hlt hlatest
      refine ⟨hpos, ?_⟩
      rw [heq]
      exact hw
  · intro hall
    cases hc : calc_is_tagged events t w with
    | false => rfl
    | true =>
        obtain ⟨hpos, _⟩ := (calc_is_tagged_iff events t w).mp hc
        obtain ⟨hmem, hlt, _⟩ := latest_event_spec events t hs hpos
        exact absurd hlt (hall _ hmem)

/-- Witness for `c1_tagged_iff_latest_preceding` at events `[1, 2]`, spike
`3/2`, window `1`. -/
theorem c1_witness :
    List.Pairwise (· < ·) [(1 : ℚ), 2] ∧
    ((calc_is_tagged [(1 : ℚ), 2] (3 / 2) 1 = true ↔
        ∃ e ∈ [(1 : ℚ), 2], e < 3 / 2 ∧
          (∀ e' ∈ [(1 : ℚ), 2], e' < 3 / 2 → e' ≤ e) ∧ 3 / 2 - e < 1) ∧
      ((∀ e ∈ [(1 : ℚ), 2], ¬ e < 3 / 2) →
        calc_is_tagged [(1 : ℚ), 2] (3 / 2) 1 = false)) :=
  ⟨by decide, c1_tagged_iff_latest_preceding [(1 : ℚ), 2] (3 / 2) 1 (by decide)⟩

/-- Claim C4: `assign_timestamp_type` is a stable partition of its input:
the output lengths add up to the input length, the concatenation of the two
outputs is a permutation of the input (no spike duplicated or dropped), and
each output is a sublist of the input, hence preserves its relative order. -/
theorem c4_stable_partition (events spikes : List ℚ) (w : ℚ) :
    (assign_timestamp_type events spikes w).1.length
        + (assign_timestamp_type events spikes w).2.length = spikes.length ∧
    ((assign_timestamp_type events spikes w).1
        ++ (assign_timestamp_type events spikes w).2).Perm spikes ∧
    (assign_timestamp_type events spikes w).1.Sublist spikes ∧
    (assign_timestamp_type events spikes w).2.Sublist spikes := by
  have hperm := List.filter_append_perm (fun t => calc_is_tagged events t w) spikes
  refine ⟨?_, hperm, List.filter_sublist _, List.filter_sublist _⟩
  have hlen := hperm.length_eq
  simpa using hlen

/-- Claim C5: for sorted events, if `e` is the nearest (latest) event
strictly preceding the spike `t`, then a spike exactly `window` after `e` is
spontaneous (the comparison is strict `<`), while a spike strictly within
the window is tagged. -/
theorem c5_window_boundary_strict (events : List ℚ) (t w e : ℚ)
    (hs : events.Pairwise (· < ·)) (hmem : e ∈ events) (hlt : e < t)
    (hlatest : ∀ e' ∈ events, e' < t → e' ≤ e) :
    (t - e = w → calc_is_tagged events t w = false) ∧
    (t - e < w → calc_is_tagged events t w = true) := by
  obtain ⟨hpos, heq⟩ := latest_event_unique events t e hs hmem hlt hlatest
  constructor
  · intro hb
    cases hc : calc_is_tagged events t w with
    | false => rfl
    | true =>
        obtain ⟨_, hw⟩ := (calc_is_tagged_iff events t w).mp hc
        rw [heq, hb] at hw
        exact absurd hw (lt_irrefl w)
  · intro hb
    apply (calc_is_tagged_iff events t w).mpr
    refine ⟨hpos, ?_⟩
    rw [heq]
    exact hb

/-- Witness for `c5_window_boundary_strict` at events `[0]`, spike `1`,
window `1`: the boundary spike is spontaneous. -/
theorem c5_witness :
    List.Pairwise (· < ·) [(0 : ℚ)] ∧ (0 : ℚ) ∈ [(0 : ℚ)] ∧ (0 : ℚ) < 1 ∧
    (∀ e' ∈ [(0 : ℚ)], e' < 1 → e' ≤ 0) ∧
    (((1 : ℚ) - 0 = 1 → calc_is_tagged [(0 : ℚ)] 1 1 = false) ∧
      ((1 : ℚ) - 0 < 1 → calc_is_tagged [(0 : ℚ)] 1 1 = true)) :=
  ⟨by decide, by decide, by decide, by decide,
    c5_window_boundary_strict [(0 : ℚ)] 1 1 0 (by decide) (by decide) (by decide)
      (by decide)⟩

/-- Claim C10: with an empty event list, `bisect_left` returns `0`, so
every spike takes the no-preceding-event branch: nothing is tagged, every
spike is returned as spontaneous, and no error is raised. -/
theorem c10_empty_events_all_spontaneous (spikes : List ℚ) (w : ℚ) :
    (∀ t, calc_is_tagged [] t w = false) ∧
    assign_timestamp_type [] spikes w = ([], spikes) := by
  have h1 : ∀ t : ℚ, calc_is_tagged [] t w = false := fun t => rfl
  refine ⟨h1, ?_⟩
  simp [assign_timestamp_type, h1]

/-! ## The argmax scan attains the maximum -/

lemma argmaxAux_spec (xs : List ℚ) : ∀ (i bi : Nat) (bv : ℚ),
    bv ≤ (argmaxAux xs i bi bv).2 ∧
    (∀ j, j < xs.length → xs.getD j 0 ≤ (argmaxAux xs i bi bv).2) ∧
    ((argmaxAux xs i bi bv).1 = bi ∧ (argmaxAux xs i bi bv).2 = bv ∨
      ∃ j, j < xs.length ∧ (argmaxAux xs i bi bv).1 = i + j ∧
        (argmaxAux xs i bi bv).2 = xs.getD j 0) := by
  induction xs with
  | nil =>
      intro i bi bv
      simp only [argmaxAux]
      refine ⟨le_refl _, fun j hj => absurd hj (Nat.not_lt_zero j), Or.inl ?_⟩
      simp
  | cons x xs ih =>
      intro i bi bv
      simp only [argmaxAux]
      by_cases h : bv < x
      · rw [if_pos h]
        obtain ⟨ih1, ih2, ih3⟩ := ih (i + 1) i x
        refine ⟨le_of_lt (lt_of_lt_of_le h ih1), ?_, ?_⟩
        · intro j hj
          cases j with
          | zero => simpa using ih1
          | succ j =>
              rw [List.getD_cons_succ]
              exact ih2 j (by simpa using hj)
        · rcases ih3 with ⟨h1, h2⟩ | ⟨j, hj, h1, h2⟩
          · exact Or.inr ⟨0, by simp, by omega, by simpa using h2⟩
          · exact Or.inr ⟨j + 1, by simpa using hj, by omega, by simpa using h2⟩
      · rw [if_neg h]
        have hxbv : x ≤ bv := not_lt.mp h
        obtain ⟨ih1, ih2, ih3⟩ := ih (i + 1) bi bv
        refine ⟨ih1, ?_, ?_⟩
        · intro j hj
          cases j with
          | zero => simpa using le_trans hxbv ih1
          | succ j =>
              rw [List.getD_cons_succ]
              exact ih2 j (by simpa using hj)
        · rcases ih3 with ⟨h1, h2⟩ | ⟨j, hj, h1, h2⟩
          · exact Or.inl ⟨h1, h2⟩
          · exact Or.inr ⟨j + 1, by simpa using hj, by omega, by simpa using h2⟩

lemma argmax_spec (xs : List ℚ) (h : xs ≠ []) :
    argmax xs < xs.length ∧
      ∀ j, j < xs.length → xs.getD j 0 ≤ xs.getD (argmax xs) 0 := by
  match xs with
  | [] => exact absurd rfl h
  | x :: rest =>
      obtain ⟨h1, h2, h3⟩ := argmaxAux_spec rest 1 0 x
      have hval : (x :: rest).getD (argmax (x :: rest)) 0 = (argmaxAux rest 1 0 x).2 := by
        rcases h3 with ⟨ha, hb⟩ | ⟨j, hj, ha, hb⟩
        · simp only [argmax, ha, hb, List.getD_cons_zero]
        · have hj1 : argmax (x :: rest) = j + 1 := by
            simp only [argmax, ha]; omega
          rw [hj1, List.getD_cons_succ, hb]
      constructor
      · rcases h3 with ⟨ha, _⟩ | ⟨j, hj, ha, _⟩
        · simp only [argmax, ha]; simp
        · simp only [argmax, ha, List.length_cons]; omega
      · intro j hj
        rw [hval]
        cases j with
        | zero => simpa using h1
        | succ j =>
            rw [List.getD_cons_succ]
            exact h2 j (by simpa using hj)

/-- A strictly dominant entry is the argmax. -/
lemma argmax_eq_of_strict (xs : List ℚ) (k : Nat) (hk : k < xs.length)
    (hdom : ∀ j, j < xs.length → j ≠ k → xs.getD j 0 < xs.getD k 0) :
    argmax xs = k := by
  have hne : xs ≠ [] := by
    intro hnil
    rw [hnil] at hk
    exact absurd hk (Nat.not_lt_zero k)
  obtain ⟨h1, h2⟩ := argmax_spec xs hne
  by_contra hcon
  exact absurd (h2 k hk) (not_le.mpr (hdom (argmax xs) h1 hcon))

lemma flattenVals_length (L C : Nat) (v : Nat → Nat → ℚ) :
    (flattenVals L C v).length = L * C := by
  simp [flattenVals]

lemma flattenVals_getD (L C : Nat) (v : Nat → Nat → ℚ) (k : Nat)
    (hk : k < L * C) : (flattenVals L C v).getD k 0 = v (k / C) (k % C) := by
  unfold flattenVals
  rw [List.getD_eq_getElem _ 0 (by simpa using hk)]
  simp

/-! ## The peak-search window when the reference index is in range -/

lemma pySliceIdx_nonneg (len : Nat) (i : Int) (h0 : 0 ≤ i) (hle : i.toNat ≤ len) :
    pySliceIdx len i = i.toNat := by
  unfold pySliceIdx
  rw [if_neg (by omega : ¬ i < 0)]
  exact min_eq_left hle

lemma sliceRows_centered (w : Waveform) (r : Nat) (h6 : 6 ≤ r)
    (hub : r + 6 ≤ w.L) :
    sliceRows w ((r : Int) - 6) ((r : Int) + 6)
      = ⟨12, w.C, fun i c => w.val (r - 6 + i) c⟩ := by
  have hstart : pySliceIdx w.L ((r : Int) - 6) = r - 6 := by
    rw [pySliceIdx_nonneg w.L _ (by omega) (by omega)]
    omega
  have hstop : pySliceIdx w.L ((r : Int) + 6) = r + 6 := by
    rw [pySliceIdx_nonneg w.L _ (by omega) (by omega)]
    omega
  unfold sliceRows
  rw [hstart, hstop]
  congr 1
  omega

lemma calc_waveform_max_normal (r : Nat) (w : Waveform) (h6 : 6 ≤ r)
    (hub : r + 6 ≤ w.L) :
    calc_waveform_max r w =
      if (flattenVals 12 w.C (fun i c => |w.val (r - 6 + i) c|)).isEmpty then none
      else some (((argmax (flattenVals 12 w.C
          (fun i c => |w.val (r - 6 + i) c|)) / 4 : Nat) : Int) + (r : Int) - 6) := by
  simp only [calc_waveform_max]
  rw [sliceRows_centered w r h6 hub]

lemma calc_waveform_max_isSome (r : Nat) (w : Waveform) (h6 : 6 ≤ r)
    (hub : r + 6 ≤ w.L) (hC : w.C = 4) :
    (calc_waveform_max r w).isSome = true := by
  rw [calc_waveform_max_normal r w h6 hub]
  have hne : ¬ ((flattenVals 12 w.C (fun i c => |w.val (r - 6 + i) c|)).isEmpty = true) := by
    intro hemp
    have hlen := flattenVals_length 12 w.C (fun i c => |w.val (r - 6 + i) c|)
    rw [List.isEmpty_iff] at hemp
    rw [hemp, hC] at hlen
    simp at hlen
  rw [if_neg hne]
  rfl

/-- When the window sits inside the cutout and one entry of the window
strictly dominates all others in absolute amplitude, `calc_waveform_max`
returns exactly that entry's global sample index. -/
lemma calc_waveform_max_eq (r : Nat) (w : Waveform) (h6 : 6 ≤ r)
    (hub : r + 6 ≤ w.L) (hC : w.C = 4) (lstar cstar : Nat)
    (hl1 : r - 6 ≤ lstar) (hl2 : lstar < r + 6) (hcs : cstar < 4)
    (hdom : ∀ l, l < r + 6 → ∀ c, c < 4 → r - 6 ≤ l → l ≠ lstar ∨ c ≠ cstar →
      |w.val l c| < |w.val lstar cstar|) :
    calc_waveform_max r w = some (lstar : Int) := by
  rw [calc_waveform_max_normal r w h6 hub, hC]
  have hlen := flattenVals_length 12 4 (fun i c => |w.val (r - 6 + i) c|)
  have hne : ¬ ((flattenVals 12 4 (fun i c => |w.val (r - 6 + i) c|)).isEmpty = true) := by
    intro hemp
    rw [List.isEmpty_iff] at hemp
    rw [hemp] at hlen
    simp at hlen
  rw [if_neg hne]
  have hkstar : (lstar - (r - 6)) * 4 + cstar < 48 := by omega
  have hget : ∀ j, j < 48 →
      (flattenVals 12 4 (fun i c => |w.val (r - 6 + i) c|)).getD j 0
        = |w.val (r - 6 + j / 4) (j % 4)| := by
    intro j hj
    exact flattenVals_getD 12 4 _ j (by omega)
  have hargmax : argmax (flattenVals 12 4 (fun i c => |w.val (r - 6 + i) c|))
      = (lstar - (r - 6)) * 4 + cstar := by
    apply argmax_eq_of_strict _ _ (by omega)
    intro j hj hjne
    rw [hlen] at hj
    rw [hget j hj, hget _ hkstar]
    have hstar1 : r - 6 + ((lstar - (r - 6)) * 4 + cstar) / 4 = lstar := by omega
    have hstar2 : ((lstar - (r - 6)) * 4 + cstar) % 4 = cstar := by omega
    rw [hstar1, hstar2]
    apply hdom (r - 6 + j / 4) (by omega) (j % 4) (by omega) (by omega)
    by_contra hcon
    push_neg at hcon
    obtain ⟨he1, he2⟩ := hcon
    exact hjne (by omega)
  rw [hargmax]
  have hdiv : ((lstar - (r - 6)) * 4 + cstar) / 4 = lstar - (r - 6) := by omega
  rw [hdiv]
  congr 1
  omega

/-! ## map over a fallible function -/

lemma mapOpt_some_length {α β : Type} (f : α → Option β) :
    ∀ (l : List α) (ys : List β), mapOpt f l = some ys → ys.length = l.length := by
  intro l
  induction l with
  | nil =>
      intro ys h
      simp only [mapOpt] at h
      cases h
      rfl
  | cons a as ih =>
      intro ys h
      simp only [mapOpt] at h
      cases hfa : f a with
      | none => rw [hfa] at h; simp at h
      | some b =>
          rw [hfa] at h
          cases hrest : mapOpt f as with
          | none => rw [hrest] at h; simp at h
          | some bs =>
              rw [hrest] at h
              simp only [Option.some.injEq] at h
              rw [← h]
              simp [ih bs hrest]

lemma mapOpt_eq_none {α β : Type} (f : α → Option β) (l : List α) (a : α)
    (ha : a ∈ l) (hf : f a = none) : mapOpt f l = none := by
  induction l with
  | nil => exact absurd ha (List.not_mem_nil a)
  | cons b bs ih =>
      rcases List.mem_cons.mp ha with h | h
      · subst h
        simp [mapOpt, hf]
      · have hnone := ih h
        cases hfb : f b with
        | none => simp [mapOpt, hfb]
        | some bv => simp [mapOpt, hfb, hnone]

lemma mapOpt_isSome_spec {α β : Type} [Inhabited α] [Inhabited β]
    (f : α → Option β) :
    ∀ l : List α, (∀ a ∈ l, (f a).isSome = true) →
      ∃ ys : List β, mapOpt f l = some ys ∧ ys.length = l.length ∧
        ∀ j, j < l.length → f (l.getD j default) = some (ys.getD j default) := by
  intro l
  induction l with
  | nil =>
      intro h
      exact ⟨[], rfl, rfl, fun j hj => absurd hj (Nat.not_lt_zero j)⟩
  | cons a as ih =>
      intro h
      have ha : (f a).isSome = true := h a (List.mem_cons_self a as)
      obtain ⟨b, hb⟩ := Option.isSome_iff_exists.mp ha
      obtain ⟨ys, h1, h2, h3⟩ := ih (fun x hx => h x (List.mem_cons_of_mem a hx))
      refine ⟨b :: ys, ?_, by simp [h2], ?_⟩
      · simp [mapOpt, hb, h1]
      · intro j hj
        cases j with
        | zero => simpa using hb
        | succ j => simpa using h3 j (by simpa using hj)

lemma align_eq_some (tagged spont res : List Waveform)
    (h : align_tagged_spont tagged spont = some res) :
    ∃ offs : List Int,
      mapOpt (calc_waveform_max (spont_ref_index spont)) tagged = some offs ∧
      offs.length = tagged.length ∧
      res = (tagged.zip offs).map
        (fun p => roll p.1 (-p.2 + (spont_ref_index spont : Int))) := by
  unfold align_tagged_spont at h
  cases hm : mapOpt (calc_waveform_max (spont_ref_index spont)) tagged with
  | none => rw [hm] at h; exact absurd h (by simp)
  | some offs =>
      rw [hm] at h
      simp only [Option.some.injEq] at h
      exact ⟨offs, rfl, mapOpt_some_length _ _ _ hm, h.symm⟩

/-! ## The reference index picks the sample of the dominant entry -/

/-- If the per-(sample, channel) mean-abs array has a unique strict maximum
at `(lstar, cstar)`, the reference index computed on source line 144 is the
sample index `lstar` of that entry. -/
lemma spont_ref_index_eq (spont : List Waveform) (L lstar cstar : Nat)
    (hL : set_L spont = L) (hC : set_C spont = 4)
    (hls : lstar < L) (hcs : cstar < 4)
    (hdom : ∀ l, l < L → ∀ c, c < 4 → l ≠ lstar ∨ c ≠ cstar →
      mean_abs_axis0 spont l c < mean_abs_axis0 spont lstar cstar) :
    spont_ref_index spont = lstar := by
  unfold spont_ref_index
  rw [hL, hC]
  have hlen := flattenVals_length L 4 (mean_abs_axis0 spont)
  have hkstar : lstar * 4 + cstar < L * 4 := by omega
  have hargmax : argmax (flattenVals L 4 (mean_abs_axis0 spont))
      = lstar * 4 + cstar := by
    apply argmax_eq_of_strict _ _ (by rw [hlen]; omega)
    intro j hj hjne
    rw [hlen] at hj
    rw [flattenVals_getD L 4 _ j hj, flattenVals_getD L 4 _ _ hkstar]
    have h1 : (lstar * 4 + cstar) / 4 = lstar := by omega
    have h2 : (lstar * 4 + cstar) % 4 = cstar := by omega
    rw [h1, h2]
    apply hdom (j / 4) (by omega) (j % 4) (by omega)
    by_contra hcon
    push_neg at hcon
    exact hjne (by omega)
  rw [hargmax]
  omega

/-- Claim C2, counterexample: for the one-waveform spontaneous set built
from `profileSkew`, the code's reference index is 0 (sample of the largest
single entry, value 10), while the index of the global maximum of the
channel-averaged profile is 1 (where the profile reads 3 versus 10/4). -/
theorem c2_counterexample :
    spont_ref_index [profileSkew] = 0 ∧
    argmax ((List.range (set_L [profileSkew])).map (profileSpec [profileSkew])) = 1 := by
  decide

/-- Claim C2 (amended): the reference index is the sample index of the
maximal entry of the per-(sample, channel) mean absolute amplitude array
(flat row-major argmax divided by the channel count 4), not the argmax of
the channel-averaged 1D profile: whenever that array has a unique strict
maximum at `(lstar, cstar)`, the reference index equals `lstar`. -/
theorem c2_ref_index_is_sample_of_max_entry (spont : List Waveform)
    (L lstar cstar : Nat) (hL : set_L spont = L) (hC : set_C spont = 4)
    (hls : lstar < L) (hcs : cstar < 4)
    (hdom : ∀ l, l < L → ∀ c, c < 4 → l ≠ lstar ∨ c ≠ cstar →
      mean_abs_axis0 spont l c < mean_abs_axis0 spont lstar cstar) :
    spont_ref_index spont = lstar :=
  spont_ref_index_eq spont L lstar cstar hL hC hls hcs hdom

/-- Witness for `c2_ref_index_is_sample_of_max_entry` on `[profileSkew]`,
whose unique largest mean-abs entry sits at sample 0, channel 0. -/
theorem c2_witness : spont_ref_index [profileSkew] = 0 :=
  c2_ref_index_is_sample_of_max_entry [profileSkew] 2 0 0 (by decide) (by decide)
    (by decide) (by decide) (by decide)

/-! ## The aligner on a successful run -/

lemma getD_map_zip_roll (tagged : List Waveform) (offs : List Int) (r : Int)
    (i : Nat) (hi : i < tagged.length) (hlen : offs.length = tagged.length) :
    ((tagged.zip offs).map (fun p => roll p.1 (-p.2 + r))).getD i default
      = roll (tagged.getD i default) (-(offs.getD i default) + r) := by
  have hz : i < ((tagged.zip offs).map (fun p => roll p.1 (-p.2 + r))).length := by
    rw [List.length_map, List.length_zip, hlen]
    omega
  rw [List.getD_eq_getElem _ _ hz, List.getElem_map, List.getElem_zip,
    List.getD_eq_getElem _ _ hi, List.getD_eq_getElem _ _ (by omega : i < offs.length)]

lemma getD_mem_of_lt (l : List Waveform) (i : Nat) (hi : i < l.length) :
    l.getD i default ∈ l := by
  rw [List.getD_eq_getElem _ _ hi]
  exact List.getElem_mem hi

/-- Claim C3: with the reference window inside the cutout and a tagged
waveform whose window holds a unique strict maximum of absolute amplitude
at global sample `lstar` (channel `cstar`), the aligner succeeds and its
`i`-th output equals the `i`-th input circularly shifted along the time
axis by `-(lstar - ref)` samples. -/
theorem c3_align_shifts_peak_to_ref (tagged spont : List Waveform) (L : Nat)
    (hshape : ∀ w ∈ tagged, w.L = L ∧ w.C = 4)
    (h6 : 6 ≤ spont_ref_index spont)
    (hub : spont_ref_index spont + 6 ≤ L)
    (i : Nat) (hi : i < tagged.length) (lstar cstar : Nat)
    (hl1 : spont_ref_index spont - 6 ≤ lstar)
    (hl2 : lstar < spont_ref_index spont + 6) (hcs : cstar < 4)
    (hdom : ∀ l, l < spont_ref_index spont + 6 → ∀ c, c < 4 →
      spont_ref_index spont - 6 ≤ l → l ≠ lstar ∨ c ≠ cstar →
      |(tagged.getD i default).val l c| < |(tagged.getD i default).val lstar cstar|) :
    ∃ res : List Waveform, align_tagged_spont tagged spont = some res ∧
      res.length = tagged.length ∧
      ∀ j, j < L → ∀ c, c < 4 →
        (res.getD i default).val j c
          = (tagged.getD i default).val
              ((((j : Int) + (lstar : Int)
                - (spont_ref_index spont : Int)) % (L : Int)).toNat) c := by
  have hall : ∀ w ∈ tagged,
      (calc_waveform_max (spont_ref_index spont) w).isSome = true := by
    intro w hw
    obtain ⟨hwL, hwC⟩ := hshape w hw
    exact calc_waveform_max_isSome _ w h6 (by rw [hwL]; exact hub) hwC
  obtain ⟨offs, hm, hlen, hgetj⟩ := mapOpt_isSome_spec _ tagged hall
  obtain ⟨hwL, hwC⟩ := hshape _ (getD_mem_of_lt tagged i hi)
  have hoff : offs.getD i default = (lstar : Int) := by
    have h1 := (calc_waveform_max_eq (spont_ref_index spont)
      (tagged.getD i default) h6 (by rw [hwL]; exact hub) hwC lstar cstar
      hl1 hl2 hcs hdom).symm.trans (hgetj i hi)
    exact (Option.some_inj.mp h1).symm
  refine ⟨(tagged.zip offs).map
    (fun p => roll p.1 (-p.2 + (spont_ref_index spont : Int))), ?_, ?_, ?_⟩
  · unfold align_tagged_spont
    rw [hm]
  · rw [List.length_map, List.length_zip, hlen]
    omega
  · intro j hj c hc
    rw [getD_map_zip_roll tagged offs _ i hi hlen, hoff]
    simp only [roll]
    rw [hwL]
    have harith : (j : Int) - (-(lstar : Int) + (spont_ref_index spont : Int))
        = (j : Int) + (lstar : Int) - (spont_ref_index spont : Int) := by ring
    rw [harith]

/-- Witness for `c3_align_shifts_peak_to_ref`: the claim's concrete
scenario, reference index 20 and a tagged local peak at sample 23 inside
`[14, 26)`, so the output is the input rolled by `-3`. -/
theorem c3_witness :
    ∃ res : List Waveform,
      align_tagged_spont [taggedPeak23] [spontPeak20] = some res ∧
      res.length = [taggedPeak23].length ∧
      ∀ j, j < 26 → ∀ c, c < 4 →
        (res.getD 0 default).val j c
          = ([taggedPeak23].getD 0 default).val
              ((((j : Int) + (23 : Int)
                - (spont_ref_index [spontPeak20] : Int)) % (26 : Int)).toNat) c :=
  c3_align_shifts_peak_to_ref [taggedPeak23] [spontPeak20] 26 (by decide)
    (by decide) (by decide) 0 (by decide) 23 0 (by decide) (by decide)
    (by decide) (by decide)

/-- Claim C7: whenever the aligner succeeds it returns exactly one output
waveform per tagged input, in input order — the `i`-th output is a circular
roll of the `i`-th input — and every output keeps its input's `(L, C)`
shape; only the time-axis phase changes. -/
theorem c7_align_preserves_length_order_shape (tagged spont : List Waveform)
    (h : (align_tagged_spont tagged spont).isSome = true) :
    ∃ res : List Waveform, align_tagged_spont tagged spont = some res ∧
      res.length = tagged.length ∧
      ∀ i, i < tagged.length →
        (∃ sh : Int, res.getD i default = roll (tagged.getD i default) sh) ∧
        (res.getD i default).L = (tagged.getD i default).L ∧
        (res.getD i default).C = (tagged.getD i default).C := by
  obtain ⟨res, hres⟩ := Option.isSome_iff_exists.mp h
  obtain ⟨offs, hm, hlen, heq⟩ := align_eq_some tagged spont res hres
  refine ⟨res, hres, ?_, ?_⟩
  · rw [heq, List.length_map, List.length_zip, hlen]
    omega
  · intro i hi
    have hith : res.getD i default
        = roll (tagged.getD i default)
            (-(offs.getD i default) + (spont_ref_index spont : Int)) := by
      rw [heq]
      exact getD_map_zip_roll tagged offs _ i hi hlen
    exact ⟨⟨_, hith⟩, by rw [hith]; rfl, by rw [hith]; rfl⟩

/-- Witness for `c7_align_preserves_length_order_shape` on the concrete
singleton sets from the C3 scenario. -/
theorem c7_witness :
    ∃ res : List Waveform,
      align_tagged_spont [taggedPeak23] [spontPeak20] = some res ∧
      res.length = [taggedPeak23].length ∧
      ∀ i, i < [taggedPeak23].length →
        (∃ sh : Int, res.getD i default = roll ([taggedPeak23].getD i default) sh) ∧
        (res.getD i default).L = ([taggedPeak23].getD i default).L ∧
        (res.getD i default).C = ([taggedPeak23].getD i default).C :=
  c7_align_preserves_length_order_shape [taggedPeak23] [spontPeak20] (by decide)

/-! ## The window when the reference index is below 6 -/

/-- Claim C8, counterexample: with a spontaneous reference index of 2 on a
20-sample cutout, the slice lower bound `2 - 6` resolves (by Python
negative-index wrap-around) to row 16, not to 0, and the alignment fails —
`isSome = false`, modelling the `ValueError` from `np.argmax` on the empty
slice `[16 : 8]` — instead of completing over a narrowed window. -/
theorem c8_counterexample :
    spont_ref_index [spontPeak2] = 2 ∧
    pySliceIdx 20 ((2 : Int) - 6) = 16 ∧
    ¬ pySliceIdx 20 ((2 : Int) - 6) = 0 ∧
    (align_tagged_spont [flatTagged20] [spontPeak2]).isSome = false := by
  decide

/-- Claim C8 (amended): if the reference index is below 6, the window's
lower bound is a negative Python index and wraps to `L + ref_index - 6`
(it does not clip to 0); as soon as `12 ≤ L` that start lies at or beyond
the stop `ref_index + 6`, the slice is empty, and the alignment fails with
the modelled `ValueError` (`none`) rather than completing. -/
theorem c8_negative_lower_bound_wraps (tagged spont : List Waveform)
    (L : Nat) (w : Waveform) (hmem : w ∈ tagged) (hwL : w.L = L)
    (hr : spont_ref_index spont < 6) (hL : 12 ≤ L) :
    pySliceIdx L ((spont_ref_index spont : Int) - 6)
      = L + spont_ref_index spont - 6 ∧
    calc_waveform_max (spont_ref_index spont) w = none ∧
    align_tagged_spont tagged spont = none := by
  have hslice : pySliceIdx L ((spont_ref_index spont : Int) - 6)
      = L + spont_ref_index spont - 6 := by
    unfold pySliceIdx
    rw [if_pos (by omega : (spont_ref_index spont : Int) - 6 < 0),
      max_eq_left (by omega : (0 : Int) ≤ (L : Int) + ((spont_ref_index spont : Int) - 6))]
    omega
  have hcm : calc_waveform_max (spont_ref_index spont) w = none := by
    simp only [calc_waveform_max]
    have hstop : pySliceIdx w.L ((spont_ref_index spont : Int) + 6)
        = spont_ref_index spont + 6 := by
      rw [hwL]
      exact pySliceIdx_nonneg L _ (by omega) (by omega)
    have hstart : pySliceIdx w.L ((spont_ref_index spont : Int) - 6)
        = L + spont_ref_index spont - 6 := by
      rw [hwL]
      exact hslice
    unfold sliceRows
    rw [hstart, hstop]
    have hz : spont_ref_index spont + 6 - (L + spont_ref_index spont - 6) = 0 := by
      omega
    rw [hz]
    simp [flattenVals]
  refine ⟨hslice, hcm, ?_⟩
  unfold align_tagged_spont
  rw [mapOpt_eq_none _ tagged w hmem hcm]

/-- Witness for `c8_negative_lower_bound_wraps` on the concrete sets with
reference index 2 and 20-sample cutouts. -/
theorem c8_witness :
    pySliceIdx 20 ((spont_ref_index [spontPeak2] : Int) - 6)
      = 20 + spont_ref_index [spontPeak2] - 6 ∧
    calc_waveform_max (spont_ref_index [spontPeak2]) flatTagged20 = none ∧
    align_tagged_spont [flatTagged20] [spontPeak2] = none :=
  c8_negative_lower_bound_wraps [flatTagged20] [spontPeak2] 20 flatTagged20
    (List.Mem.head _) (by decide) (by decide) (by decide)

/-- Claim C9: aligning the spontaneous set against itself, the waveform
whose dominant entry defines the reference index finds its local peak at
the reference index itself, so its offset is zero and it comes back
unshifted. -/
theorem c9_self_alignment_reference_unshifted (spont : List Waveform)
    (L lstar cstar cw i : Nat)
    (hshape : ∀ w ∈ spont, w.L = L ∧ w.C = 4)
    (hL : set_L spont = L) (hC : set_C spont = 4)
    (hls : lstar < L) (hcs : cstar < 4) (hcw : cw < 4)
    (h6 : 6 ≤ lstar) (hub : lstar + 6 ≤ L)
    (hi : i < spont.length)
    (hmean : ∀ l, l < L → ∀ c, c < 4 → l ≠ lstar ∨ c ≠ cstar →
      mean_abs_axis0 spont l c < mean_abs_axis0 spont lstar cstar)
    (hself : ∀ l, l < lstar + 6 → ∀ c, c < 4 → lstar - 6 ≤ l →
      l ≠ lstar ∨ c ≠ cw →
      |(spont.getD i default).val l c| < |(spont.getD i default).val lstar cw|) :
    spont_ref_index spont = lstar ∧
    calc_waveform_max (spont_ref_index spont) (spont.getD i default)
      = some ((spont_ref_index spont : Int)) ∧
    ∃ res : List Waveform, align_tagged_spont spont spont = some res ∧
      ∀ j, j < L → ∀ c, c < 4 →
        (res.getD i default).val j c = (spont.getD i default).val j c := by
  have href : spont_ref_index spont = lstar :=
    spont_ref_index_eq spont L lstar cstar hL hC hls hcs hmean
  obtain ⟨hwL, hwC⟩ := hshape _ (getD_mem_of_lt spont i hi)
  have hcm : calc_waveform_max (spont_ref_index spont) (spont.getD i default)
      = some ((spont_ref_index spont : Int)) := by
    rw [href]
    exact calc_waveform_max_eq lstar _ h6 (by rw [hwL]; exact hub) hwC lstar cw
      (by omega) (by omega) hcw hself
  have hall : ∀ w ∈ spont,
      (calc_waveform_max (spont_ref_index spont) w).isSome = true := by
    intro w hw
    obtain ⟨hwL2, hwC2⟩ := hshape w hw
    rw [href]
    exact calc_waveform_max_isSome lstar w h6 (by rw [hwL2]; exact hub) hwC2
  obtain ⟨offs, hm, hlen, hgetj⟩ := mapOpt_isSome_spec _ spont hall
  have hoff : offs.getD i default = (spont_ref_index spont : Int) := by
    have h1 := hcm.symm.trans (hgetj i hi)
    exact (Option.some_inj.mp h1).symm
  refine ⟨href, hcm, ⟨(spont.zip offs).map
    (fun p => roll p.1 (-p.2 + (spont_ref_index spont : Int))), ?_, ?_⟩⟩
  · unfold align_tagged_spont
    rw [hm]
  · intro j hj c hc
    rw [getD_map_zip_roll spont offs _ i hi hlen, hoff]
    simp only [roll]
    have hsh : -(spont_ref_index spont : Int) + (spont_ref_index spont : Int)
        = 0 := by ring
    rw [hsh, hwL]
    have hidx : ((((j : Int) - 0) % (L : Int)).toNat) = j := by
      have h1 : ((j : Int) - 0) = (j : Int) := by ring
      rw [h1, Int.emod_eq_of_lt (by omega) (by omega)]
      omega
    rw [hidx]

/-- Witness for `c9_self_alignment_reference_unshifted` on the singleton
spontaneous set `[spontPeak20]`, aligned against itself. -/
theorem c9_witness :
    spont_ref_index [spontPeak20] = 20 ∧
    calc_waveform_max (spont_ref_index [spontPeak20]) ([spontPeak20].getD 0 default)
      = some ((spont_ref_index [spontPeak20] : Int)) ∧
    ∃ res : List Waveform, align_tagged_spont [spontPeak20] [spontPeak20] = some res ∧
      ∀ j, j < 26 → ∀ c, c < 4 →
        (res.getD 0 default).val j c = ([spontPeak20].getD 0 default).val j c :=
  c9_self_alignment_reference_unshifted [spontPeak20] 26 20 0 0 0 (by decide)
    (by decide) (by decide) (by decide) (by decide) (by decide) (by decide)
    (by decide) (by decide) (by decide) (by decide)

/-! ## Sum algebra for the baseline removal -/

lemma sum_map_div {α : Type} (l : List α) (f : α → ℚ) (d : ℚ) :
    (l.map (fun a => f a / d)).sum = (l.map f).sum / d := by
  induction l with
  | nil => simp
  | cons a as ih => simp [ih, add_div]

lemma sum_map_add {α : Type} (l : List α) (f g : α → ℚ) :
    (l.map (fun a => f a + g a)).sum = (l.map f).sum + (l.map g).sum := by
  induction l with
  | nil => simp
  | cons a as ih =>
      simp only [List.map_cons, List.sum_cons, ih]
      ring

lemma sum_map_sub {α : Type} (l : List α) (f g : α → ℚ) :
    (l.map (fun a => f a - g a)).sum = (l.map f).sum - (l.map g).sum := by
  induction l with
  | nil => simp
  | cons a as ih =>
      simp only [List.map_cons, List.sum_cons, ih]
      ring

lemma sum_map_const {α : Type} (l : List α) (k : ℚ) :
    (l.map (fun _ => k)).sum = l.length * k := by
  induction l with
  | nil => simp
  | cons a as ih =>
      simp only [List.map_cons, List.sum_cons, List.length_cons, ih]
      push_cast
      ring

lemma sum_map_comm {α β : Type} (l1 : List α) (l2 : List β) (f : α → β → ℚ) :
    (l1.map (fun a => (l2.map (fun b => f a b)).sum)).sum
      = (l2.map (fun b => (l1.map (fun a => f a b)).sum)).sum := by
  induction l1 with
  | nil => simp
  | cons a as ih =>
      simp only [List.map_cons, List.sum_cons, ih]
      rw [← sum_map_add]

/-- Claim C6: the inline baseline step computes one scalar per channel —
the mean of that channel over all samples of all waveforms — subtracts it
from every sample of every waveform, and afterwards the per-channel mean
over the whole set is exactly zero. -/
theorem c6_baseline_centers_channels (ws : List Waveform) (L : Nat)
    (hL : set_L ws = L) (hL0 : 0 < L) (hN : 0 < ws.length)
    (hshape : ∀ w ∈ ws, w.L = L ∧ w.C = 4) (c : Nat) :
    baseline_offset ws L c = channelMeanSpec ws L c ∧
    (∀ i, i < ws.length → ∀ l ch,
      ((remove_baseline ws).getD i default).val l ch
        = (ws.getD i default).val l ch - baseline_offset ws L ch) ∧
    channelMeanSpec (remove_baseline ws) L c = 0 := by
  have hNne : (ws.length : ℚ) ≠ 0 := Nat.cast_ne_zero.mpr (by omega)
  have hLne : (L : ℚ) ≠ 0 := Nat.cast_ne_zero.mpr (by omega)
  have hmean : ∀ ch : Nat, baseline_offset ws L ch = channelMeanSpec ws L ch := by
    intro ch
    unfold baseline_offset channelMeanSpec
    rw [sum_map_div, sum_map_comm (List.range L) ws (fun l w => w.val l ch),
      div_div]
  refine ⟨hmean c, ?_, ?_⟩
  · intro i hi l ch
    unfold remove_baseline
    rw [List.getD_eq_getElem _ _ (by rw [List.length_map]; exact hi),
      List.getElem_map, List.getD_eq_getElem _ _ hi, hL]
  · unfold channelMeanSpec remove_baseline
    rw [List.map_map, List.length_map]
    simp only [Function.comp_def, hL]
    simp only [sum_map_sub, sum_map_const, List.length_range]
    rw [hmean c]
    unfold channelMeanSpec
    field_simp
    ring

/-- Witness for `c6_baseline_centers_channels` on the singleton constant
set `[constWave]`. -/
theorem c6_witness :
    baseline_offset [constWave] 1 0 = channelMeanSpec [constWave] 1 0 ∧
    (∀ i, i < [constWave].length → ∀ l ch,
      ((remove_baseline [constWave]).getD i default).val l ch
        = ([constWave].getD i default).val l ch - baseline_offset [constWave] 1 ch) ∧
    channelMeanSpec (remove_baseline [constWave]) 1 0 = 0 :=
  c6_baseline_centers_channels [constWave] 1 (by decide) (by decide) (by decide)
    (by decide) 0
